import Mathlib

/-!
Verification of the counting-sort-mpi repository.

The distributed counting sort (src/counting_sort.c), its helpers
(src/util.c), the serial reference implementation (src/serial.c) and the
process entry point (src/main.c) are embedded as executable Lean functions
on lists.  C `int` values are modelled as `Int`, array contents as
`List Int`, histogram contents as `List Nat`.  The MPI collectives are
modelled by their defining semantics: `MPI_Allreduce` with `MPI_MIN`/`MPI_MAX`
combines the per-rank local values with `min`/`max` and every rank receives
the combined value; the manual gather at rank 0 sums the per-rank local
histograms element-wise; `MPI_Bcast` makes the array of rank 0 the final array of
every rank, so the broadcast result is the single list computed at rank 0.
-/

namespace CSMPI

/-- RANGE_MIN from util.h line 33. -/
def RANGE_MIN : Int := 0

/-- RANGE_MAX from util.h line 36. -/
def RANGE_MAX : Int := 100000

/-- One iteration of the scanning loop of array_min_max (util.c lines 145-149):
the running pair (min, max) is updated by comparing the element against the
running minimum first and, only when that test fails, against the running
maximum. -/
def mmStep (mM : Int × Int) (x : Int) : Int × Int :=
  if x < mM.1 then (x, mM.2)
  else if x > mM.2 then (mM.1, x)
  else mM

/-- array_min_max (util.c lines 141-150): both outputs start at array[0] and
the loop then scans every element from index 0 on. -/
def array_min_max (a : List Int) : Int × Int :=
  a.foldl mmStep (a.headD 0, a.headD 0)

/-- array_min_max as called on the sub-array &array[start] of length len
(counting_sort.c lines 74 and 88): the seed element array[start] is read from
the full array even when len = 0. -/
def segMinMax (a : List Int) (start len : Nat) : Int × Int :=
  ((a.drop start).take len).foldl mmStep (a.getD start 0, a.getD start 0)

/-- find_min_max (counting_sort.c lines 60-98): with local_size = size/num_proc,
rank r > 0 scans the sub-array starting at (r-1)*local_size of length
local_size; rank 0 scans the sub-array starting at (num_proc-1)*local_size of
length local_size + num_leftout where num_leftout = size - local_size*num_proc.
The two MPI_Allreduce calls combine the local minima with MPI_MIN and the local
maxima with MPI_MAX; every rank receives this combined pair. -/
def localRange (a : List Int) (W r : Nat) : Int × Int :=
  if r = 0 then
    segMinMax a ((W - 1) * (a.length / W))
      (a.length / W + (a.length - a.length / W * W))
  else segMinMax a ((r - 1) * (a.length / W)) (a.length / W)

/-- The two MPI_Allreduce calls of find_min_max (counting_sort.c lines 96-97):
the local minima of all the ranks are combined with MPI_MIN and the local
maxima with MPI_MAX; every rank receives this combined pair. -/
def find_min_max (a : List Int) (W : Nat) : Int × Int :=
  ((List.range W).foldl (fun acc r => min acc (localRange a W r).1)
      (localRange a W 0).1,
   (List.range W).foldl (fun acc r => max acc (localRange a W r).2)
      (localRange a W 0).2)

/-- key (counting_sort.c lines 44-46): the identity on int. -/
def key (item : Int) : Int := item

/-- One update `local_count[key(array[i]) - min] += 1` (counting_sort.c
lines 129 and 151). -/
def incCount (c : List Nat) (minv x : Int) : List Nat :=
  c.set (key x - minv).toNat (c.getD (key x - minv).toNat 0 + 1)

/-- A counting loop: incCount folded over the scanned elements. -/
def buildCount (c : List Nat) (minv : Int) (xs : List Int) : List Nat :=
  xs.foldl (fun acc x => incCount acc minv x) c

/-- The elements rank r scans in the histogram phase: the loop at
counting_sort.c lines 127-129 covers indices
[rank*local_size, rank*local_size + local_size); rank 0 additionally covers
the left-out tail [local_size*num_proc, size) (lines 148-151). -/
def histElems (a : List Int) (W r : Nat) : List Int :=
  let L := a.length / W
  (a.drop (r * L)).take L ++ (if r = 0 then a.drop (L * W) else [])

/-- local_count of rank r: count_size zero-initialised entries (counting_sort.c
lines 118-120) filled by the counting loops. -/
def local_count (a : List Int) (minv : Int) (sz : Nat) (W r : Nat) : List Nat :=
  buildCount (List.replicate sz 0) minv (histElems a W r)

/-- count[j] += local_count[j] for every j < count_size (counting_sort.c
lines 162-163). -/
def addVec (u v : List Nat) : List Nat := u.zipWith (· + ·) v

/-- The global count[] of the coordinator: zero-initialised (counting_sort.c lines
139-141); the loop at lines 158-164 then adds the local_count of rank 0 itself and the
local_count received from each rank 1..num_proc-1, element by element. -/
def global_count (a : List Int) (minv : Int) (sz : Nat) (W : Nat) : List Nat :=
  (List.range W).foldl (fun acc r => addVec acc (local_count a minv sz W r))
    (List.replicate sz 0)

/-- The reconstruction loop (counting_sort.c lines 167-169): for each value
i = min..max in increasing order, write count[i - min] copies of i; sz is the
number of iterations max - min + 1. -/
def reconstruct (minv : Int) (sz : Nat) (cnt : List Nat) : List Int :=
  ((List.range sz).map (fun i => List.replicate (cnt.getD i 0) (minv + (i : Int)))).flatten

/-- counting_sort (counting_sort.c lines 102-188).  The returned list is the
content of `array` on every rank after the final MPI_Bcast from rank 0
(line 187). -/
def counting_sort (a : List Int) (W : Nat) : List Int :=
  let mM := find_min_max a W
  let sz := (mM.2 - mM.1 + 1).toNat
  reconstruct mM.1 sz (global_count a mM.1 sz W)

/-- The single-process counting_sort of serial.c lines 145-163. -/
def serial_counting_sort (a : List Int) : List Int :=
  let mM := array_min_max a
  let sz := (mM.2 - mM.1 + 1).toNat
  reconstruct mM.1 sz (buildCount (List.replicate sz 0) mM.1 a)

/-! ### Folding min and max over a list -/

theorem foldl_min_le_init (l : List Int) : ∀ m : Int, l.foldl min m ≤ m := by
  induction l with
  | nil => intro m; simp
  | cons x t ih => intro m; exact le_trans (ih (min m x)) (min_le_left m x)

theorem foldl_min_le_mem (l : List Int) :
    ∀ m x, x ∈ l → l.foldl min m ≤ x := by
  induction l with
  | nil => intro m x hx; cases hx
  | cons y t ih =>
    intro m x hx
    rcases List.mem_cons.mp hx with h | h
    · subst h
      exact le_trans (foldl_min_le_init t (min m x)) (min_le_right m x)
    · exact ih (min m y) x h

theorem foldl_min_mem (l : List Int) :
    ∀ m, l.foldl min m = m ∨ l.foldl min m ∈ l := by
  induction l with
  | nil => intro m; left; rfl
  | cons y t ih =>
    intro m
    rcases ih (min m y) with h | h
    · rcases min_choice m y with hc | hc
      · left; simpa [hc] using h
      · right; rw [List.foldl_cons, h, hc]; exact List.mem_cons_self y t
    · right; exact List.mem_cons_of_mem y h

theorem le_foldl_max_init (l : List Int) : ∀ m : Int, m ≤ l.foldl max m := by
  induction l with
  | nil => intro m; simp
  | cons x t ih => intro m; exact le_trans (le_max_left m x) (ih (max m x))

theorem le_foldl_max_mem (l : List Int) :
    ∀ m x, x ∈ l → x ≤ l.foldl max m := by
  induction l with
  | nil => intro m x hx; cases hx
  | cons y t ih =>
    intro m x hx
    rcases List.mem_cons.mp hx with h | h
    · subst h
      exact le_trans (le_max_right m x) (le_foldl_max_init t (max m x))
    · exact ih (max m y) x h

theorem foldl_max_mem (l : List Int) :
    ∀ m, l.foldl max m = m ∨ l.foldl max m ∈ l := by
  induction l with
  | nil => intro m; left; rfl
  | cons y t ih =>
    intro m
    rcases ih (max m y) with h | h
    · rcases max_choice m y with hc | hc
      · left; simpa [hc] using h
      · right; rw [List.foldl_cons, h, hc]; exact List.mem_cons_self y t
    · right; exact List.mem_cons_of_mem y h

theorem mmStep_eq (m M x : Int) (h : m ≤ M) :
    mmStep (m, M) x = (min m x, max M x) := by
  unfold mmStep
  by_cases h1 : x < m
  · have hxM : x ≤ M := le_trans h1.le h
    simp [h1, min_eq_right h1.le, max_eq_left hxM]
  · have hmx : m ≤ x := not_lt.mp h1
    by_cases h2 : x > M
    · simp [h1, h2, min_eq_left hmx, max_eq_right h2.le]
    · have hxM : x ≤ M := not_lt.mp h2
      simp [h1, h2, min_eq_left hmx, max_eq_left hxM]

theorem foldl_mmStep (l : List Int) :
    ∀ m M : Int, m ≤ M →
      l.foldl mmStep (m, M) = (l.foldl min m, l.foldl max M) := by
  induction l with
  | nil => intro m M _; rfl
  | cons x t ih =>
    intro m M h
    have hstep : mmStep (m, M) x = (min m x, max M x) := mmStep_eq m M x h
    have hle : min m x ≤ max M x :=
      le_trans (min_le_left m x) (le_trans h (le_max_left M x))
    simp only [List.foldl_cons, hstep]
    exact ih (min m x) (max M x) hle

/-- array_min_max on a non-empty list returns the true minimum and the true
maximum: each output is an element of the list, the first bounds the list from
below, the second from above. -/
theorem array_min_max_spec (a : List Int) (ha : a ≠ []) :
    (array_min_max a).1 ∈ a ∧ (∀ x ∈ a, (array_min_max a).1 ≤ x) ∧
    (array_min_max a).2 ∈ a ∧ (∀ x ∈ a, x ≤ (array_min_max a).2) := by
  obtain ⟨y, t, rfl⟩ := List.exists_cons_of_ne_nil ha
  unfold array_min_max
  rw [List.headD_cons, foldl_mmStep _ _ _ le_rfl]
  refine ⟨?_, ?_, ?_, ?_⟩
  · rcases foldl_min_mem (y :: t) y with h | h
    · rw [h]; exact List.mem_cons_self y t
    · exact h
  · intro x hx; exact foldl_min_le_mem (y :: t) y x hx
  · rcases foldl_max_mem (y :: t) y with h | h
    · rw [h]; exact List.mem_cons_self y t
    · exact h
  · intro x hx; exact le_foldl_max_mem (y :: t) y x hx

/-- C10: for every array of size at least 1, array_min_max sets *min to the
true minimum and *max to the true maximum of the array; the skipped maximum
comparison after a minimum update is harmless because both outputs start at
array[0]. -/
theorem array_min_max_correct (a : List Int) (ha : a ≠ []) :
    (array_min_max a).1 ∈ a ∧ (∀ x ∈ a, (array_min_max a).1 ≤ x) ∧
    (array_min_max a).2 ∈ a ∧ (∀ x ∈ a, x ≤ (array_min_max a).2) :=
  array_min_max_spec a ha

/-! ### The distributed range reduction -/

theorem getD_mem (a : List Int) (s : Nat) (h : s < a.length) : a.getD s 0 ∈ a := by
  rw [List.getD_eq_getElem a 0 h]
  exact List.getElem_mem h

/-- The start offsets used by find_min_max and counting_sort are in bounds:
k * (N / W) < N for every k ≤ W - 1 once N ≥ 1. -/
theorem chunk_start_lt (N W k : Nat) (hN : 1 ≤ N) (hk : k ≤ W - 1) :
    k * (N / W) < N := by
  rcases Nat.eq_zero_or_pos (N / W) with h0 | h1
  · simpa [h0] using hN
  · have hW : 1 ≤ W := by
      by_contra h
      interval_cases W
      simp at h1
    have hLW : N / W * W ≤ N := Nat.div_mul_le_self _ _
    have hkL : k * (N / W) ≤ (W - 1) * (N / W) := Nat.mul_le_mul_right _ hk
    have hE : (W - 1 + 1) * (N / W) = (W - 1) * (N / W) + N / W := Nat.succ_mul _ _
    rw [Nat.sub_add_cancel hW] at hE
    have hC : W * (N / W) = N / W * W := Nat.mul_comm _ _
    omega

theorem nat_sub_le_helper (N A B L : Nat) (h1 : A + L = B) (h2 : B ≤ N) :
    N - A ≤ L + (N - B) := by omega

/-- The segment of the coordinator in find_min_max is exactly the tail of the array
that starts at (num_proc - 1) * local_size. -/
theorem coord_seg_eq (a : List Int) (W : Nat) (hW : 1 ≤ W) :
    (a.drop ((W - 1) * (a.length / W))).take
        (a.length / W + (a.length - a.length / W * W)) =
      a.drop ((W - 1) * (a.length / W)) := by
  apply List.take_of_length_le
  rw [List.length_drop]
  have hLW : a.length / W * W ≤ a.length := Nat.div_mul_le_self _ _
  have hE : (W - 1) * (a.length / W) + a.length / W = a.length / W * W := by
    have h1 : (W - 1 + 1) * (a.length / W) =
        (W - 1) * (a.length / W) + a.length / W := Nat.succ_mul _ _
    rw [Nat.sub_add_cancel hW] at h1
    rw [← h1, Nat.mul_comm]
  exact nat_sub_le_helper a.length _ _ _ hE hLW

/-- Every element of the evenly divided prefix take (k * L) lies in one of the
chunks (drop ((r - 1) * L)).take L for some 1 ≤ r ≤ k. -/
theorem mem_take_chunks (a : List Int) (L : Nat) :
    ∀ k x, x ∈ a.take (k * L) →
      ∃ r, 1 ≤ r ∧ r ≤ k ∧ x ∈ (a.drop ((r - 1) * L)).take L := by
  intro k
  induction k with
  | zero => simp
  | succ n ih =>
    intro x hx
    rw [Nat.succ_mul, List.take_add] at hx
    rcases List.mem_append.mp hx with h | h
    · obtain ⟨r, h1, h2, h3⟩ := ih x h
      exact ⟨r, h1, Nat.le_succ_of_le h2, h3⟩
    · exact ⟨n + 1, Nat.succ_le_succ (Nat.zero_le n), le_rfl, by simpa using h⟩

/-- segMinMax with an in-bounds start returns an element of the whole array
that bounds the scanned segment from below, and one that bounds it from
above. -/
theorem segMinMax_spec (a : List Int) (s len : Nat) (hs : s < a.length) :
    ((segMinMax a s len).1 ∈ a ∧
      ∀ x ∈ (a.drop s).take len, (segMinMax a s len).1 ≤ x) ∧
    ((segMinMax a s len).2 ∈ a ∧
      ∀ x ∈ (a.drop s).take len, x ≤ (segMinMax a s len).2) := by
  unfold segMinMax
  rw [foldl_mmStep _ _ _ le_rfl]
  refine ⟨⟨?_, ?_⟩, ?_, ?_⟩
  · rcases foldl_min_mem ((a.drop s).take len) (a.getD s 0) with h | h
    · rw [h]; exact getD_mem a s hs
    · exact List.drop_subset s a (List.take_subset len (a.drop s) h)
  · intro x hx; exact foldl_min_le_mem _ _ x hx
  · rcases foldl_max_mem ((a.drop s).take len) (a.getD s 0) with h | h
    · rw [h]; exact getD_mem a s hs
    · exact List.drop_subset s a (List.take_subset len (a.drop s) h)
  · intro x hx; exact le_foldl_max_mem _ _ x hx

theorem localRange_start_lt (a : List Int) (W r : Nat) (ha : 1 ≤ a.length)
    (hr : r < W) : (if r = 0 then (W - 1) * (a.length / W)
      else (r - 1) * (a.length / W)) < a.length := by
  split
  · exact chunk_start_lt a.length W (W - 1) ha le_rfl
  · exact chunk_start_lt a.length W (r - 1) ha (by omega)

/-- The pair reduced by find_min_max is the true minimum and maximum of the
whole dataset: each component is an element of the array and bounds every
element of the array. -/
theorem find_min_max_spec (a : List Int) (W : Nat) (ha : a ≠ []) (hW : 1 ≤ W) :
    (find_min_max a W).1 ∈ a ∧ (∀ x ∈ a, (find_min_max a W).1 ≤ x) ∧
    (find_min_max a W).2 ∈ a ∧ (∀ x ∈ a, x ≤ (find_min_max a W).2) := by
  have hlen : 1 ≤ a.length := List.length_pos.mpr ha
  have hmem : ∀ r, r < W → (localRange a W r).1 ∈ a ∧ (localRange a W r).2 ∈ a := by
    intro r hr
    have hs := localRange_start_lt a W r hlen hr
    unfold localRange
    split
    case isTrue h =>
      rw [h] at hs
      simp only [h] at hs ⊢
      exact ⟨((segMinMax_spec a _ _ hs).1).1, ((segMinMax_spec a _ _ hs).2).1⟩
    case isFalse h =>
      simp only [h, if_false] at hs
      exact ⟨((segMinMax_spec a _ _ hs).1).1, ((segMinMax_spec a _ _ hs).2).1⟩
  have hcover : ∀ x ∈ a, ∃ r, r < W ∧
      ((localRange a W r).1 ≤ x ∧ x ≤ (localRange a W r).2) := by
    intro x hx
    rw [← List.take_append_drop ((W - 1) * (a.length / W)) a] at hx
    rcases List.mem_append.mp hx with h | h
    · obtain ⟨r, h1, h2, h3⟩ := mem_take_chunks a (a.length / W) (W - 1) x h
      have hr : r < W := by omega
      have hr0 : r ≠ 0 := by omega
      have hs := localRange_start_lt a W r hlen hr
      simp only [hr0, if_false] at hs
      refine ⟨r, hr, ?_, ?_⟩
      · have := ((segMinMax_spec a ((r - 1) * (a.length / W)) (a.length / W) hs).1).2
        simpa [localRange, hr0] using this x h3
      · have := ((segMinMax_spec a ((r - 1) * (a.length / W)) (a.length / W) hs).2).2
        simpa [localRange, hr0] using this x h3
    · have hs : (W - 1) * (a.length / W) < a.length :=
        chunk_start_lt a.length W (W - 1) hlen le_rfl
      have hmem0 : x ∈ (a.drop ((W - 1) * (a.length / W))).take
          (a.length / W + (a.length - a.length / W * W)) := by
        rw [coord_seg_eq a W hW]; exact h
      refine ⟨0, hW, ?_, ?_⟩
      · have := ((segMinMax_spec a ((W - 1) * (a.length / W))
          (a.length / W + (a.length - a.length / W * W)) hs).1).2
        simpa [localRange] using this x hmem0
      · have := ((segMinMax_spec a ((W - 1) * (a.length / W))
          (a.length / W + (a.length - a.length / W * W)) hs).2).2
        simpa [localRange] using this x hmem0
  have hfold1 : (find_min_max a W).1 =
      ((List.range W).map (fun r => (localRange a W r).1)).foldl min
        (localRange a W 0).1 := by
    unfold find_min_max
    rw [List.foldl_map]
  have hfold2 : (find_min_max a W).2 =
      ((List.range W).map (fun r => (localRange a W r).2)).foldl max
        (localRange a W 0).2 := by
    unfold find_min_max
    rw [List.foldl_map]
  refine ⟨?_, ?_, ?_, ?_⟩
  · rw [hfold1]
    rcases foldl_min_mem ((List.range W).map (fun r => (localRange a W r).1))
        (localRange a W 0).1 with h | h
    · rw [h]; exact (hmem 0 hW).1
    · obtain ⟨r, hr, hrx⟩ := List.mem_map.mp h
      rw [← hrx]; exact (hmem r (List.mem_range.mp hr)).1
  · intro x hx
    obtain ⟨r, hr, hlo, _⟩ := hcover x hx
    rw [hfold1]
    calc ((List.range W).map (fun r => (localRange a W r).1)).foldl min
          (localRange a W 0).1 ≤ (localRange a W r).1 :=
          foldl_min_le_mem _ _ _
            (List.mem_map_of_mem _ (List.mem_range.mpr hr))
      _ ≤ x := hlo
  · rw [hfold2]
    rcases foldl_max_mem ((List.range W).map (fun r => (localRange a W r).2))
        (localRange a W 0).2 with h | h
    · rw [h]; exact (hmem 0 hW).2
    · obtain ⟨r, hr, hrx⟩ := List.mem_map.mp h
      rw [← hrx]; exact (hmem r (List.mem_range.mp hr)).2
  · intro x hx
    obtain ⟨r, hr, _, hhi⟩ := hcover x hx
    rw [hfold2]
    calc x ≤ (localRange a W r).2 := hhi
      _ ≤ ((List.range W).map (fun r => (localRange a W r).2)).foldl max
          (localRange a W 0).2 :=
          le_foldl_max_mem _ _ _
            (List.mem_map_of_mem _ (List.mem_range.mpr hr))

/-- C3: for every non-empty dataset and worker count W ≥ 1, the reduced
(min, max) pair of find_min_max equals the true minimum and maximum of the
full dataset; the MPI_Allreduce collective delivers this same pair to every
worker. -/
theorem find_min_max_correct (a : List Int) (W : Nat) (ha : a ≠ []) (hW : 1 ≤ W) :
    (find_min_max a W).1 ∈ a ∧ (∀ x ∈ a, (find_min_max a W).1 ≤ x) ∧
    (find_min_max a W).2 ∈ a ∧ (∀ x ∈ a, x ≤ (find_min_max a W).2) :=
  find_min_max_spec a W ha hW

/-- Witness for C3 at the concrete array [4, 7, 2] with W = 2. -/
theorem find_min_max_correct_witness :
    (([4, 7, 2] : List Int) ≠ []) ∧ 1 ≤ 2 ∧
    ((find_min_max [4, 7, 2] 2).1 ∈ ([4, 7, 2] : List Int) ∧
     (∀ x ∈ ([4, 7, 2] : List Int), (find_min_max [4, 7, 2] 2).1 ≤ x) ∧
     (find_min_max [4, 7, 2] 2).2 ∈ ([4, 7, 2] : List Int) ∧
     (∀ x ∈ ([4, 7, 2] : List Int), x ≤ (find_min_max [4, 7, 2] 2).2)) :=
  ⟨by decide, by decide, find_min_max_correct [4, 7, 2] 2 (by decide) (by decide)⟩

/-! ### Histograms -/

theorem getD_set_self (v : Nat) :
    ∀ (l : List Nat) (i : Nat), i < l.length → (l.set i v).getD i 0 = v := by
  intro l
  induction l with
  | nil => intro i h; simp at h
  | cons x t ih =>
    intro i h
    cases i with
    | zero => rfl
    | succ n =>
      rw [List.set_cons_succ, List.getD_cons_succ]
      exact ih n (by simpa using h)

theorem getD_set_ne (v : Nat) :
    ∀ (l : List Nat) (i j : Nat), i ≠ j → (l.set i v).getD j 0 = l.getD j 0 := by
  intro l
  induction l with
  | nil => intro i j _; simp
  | cons x t ih =>
    intro i j hij
    cases i with
    | zero =>
      cases j with
      | zero => exact absurd rfl hij
      | succ m => rfl
    | succ n =>
      cases j with
      | zero => rfl
      | succ m =>
        rw [List.set_cons_succ, List.getD_cons_succ, List.getD_cons_succ]
        exact ih n m (by omega)

theorem getD_zero_of_le (l : List Nat) (j : Nat) (h : l.length ≤ j) :
    l.getD j 0 = 0 := by
  simp [List.getD_eq_getElem?_getD, List.getElem?_eq_none h]

theorem getD_replicate_zero (sz j : Nat) :
    (List.replicate sz (0 : Nat)).getD j 0 = 0 := by
  by_cases h : j < sz
  · rw [List.getD_eq_getElem _ _ (by simpa using h)]
    simp
  · exact getD_zero_of_le _ _ (by simpa using not_lt.mp h)

theorem incCount_length (c : List Nat) (minv x : Int) :
    (incCount c minv x).length = c.length := by
  simp [incCount]

theorem key_eq (item : Int) : key item = item := rfl

theorem incCount_getD (c : List Nat) (minv x : Int) (j : Nat)
    (hx : minv ≤ x ∧ x < minv + c.length) :
    (incCount c minv x).getD j 0 =
      c.getD j 0 + (if x = minv + (j : Int) then 1 else 0) := by
  have hi : (x - minv).toNat < c.length := by omega
  by_cases hji : (x - minv).toNat = j
  · have hxj : x = minv + (j : Int) := by omega
    unfold incCount
    rw [key_eq, hji, getD_set_self _ _ _ (by omega), if_pos hxj]
  · have hxj : ¬ x = minv + (j : Int) := by omega
    unfold incCount
    rw [key_eq, getD_set_ne _ _ _ _ hji, if_neg hxj]
    omega

theorem buildCount_length (minv : Int) (xs : List Int) :
    ∀ c : List Nat, (buildCount c minv xs).length = c.length := by
  induction xs with
  | nil => intro c; rfl
  | cons x t ih =>
    intro c
    show (buildCount (incCount c minv x) minv t).length = _
    rw [ih, incCount_length]

/-- The counting loop adds, at offset j, exactly the number of occurrences of
the value min + j among the scanned elements. -/
theorem buildCount_getD (minv : Int) (xs : List Int) :
    ∀ c : List Nat, (∀ x ∈ xs, minv ≤ x ∧ x < minv + c.length) → ∀ j : Nat,
      (buildCount c minv xs).getD j 0 = c.getD j 0 + xs.count (minv + (j : Int)) := by
  induction xs with
  | nil => intro c _ j; simp [buildCount]
  | cons x t ih =>
    intro c hb j
    have hx := hb x (List.mem_cons_self x t)
    have hrest : ∀ y ∈ t, minv ≤ y ∧ y < minv + (incCount c minv x).length := by
      rw [incCount_length]
      intro y hy
      exact hb y (List.mem_cons_of_mem _ hy)
    show (buildCount (incCount c minv x) minv t).getD j 0 = _
    rw [ih _ hrest j, incCount_getD c minv x j hx, List.count_cons]
    simp only [beq_iff_eq]
    split_ifs <;> omega

theorem addVec_getD (u : List Nat) :
    ∀ (v : List Nat) (j : Nat), j < u.length → j < v.length →
      (addVec u v).getD j 0 = u.getD j 0 + v.getD j 0 := by
  induction u with
  | nil => intro v j h _; simp at h
  | cons x tu ih =>
    intro v j h1 h2
    cases v with
    | nil => simp at h2
    | cons y tv =>
      cases j with
      | zero => rfl
      | succ n =>
        show (addVec tu tv).getD n 0 = _
        rw [List.getD_cons_succ, List.getD_cons_succ]
        exact ih tv n (by simpa using h1) (by simpa using h2)

theorem addVec_length (u v : List Nat) :
    (addVec u v).length = min u.length v.length := by
  simp [addVec]

/-- Length and entries of the element-wise sum of per-rank histograms:
the generic gather loop of counting_sort.c lines 158-164. -/
theorem foldl_addVec_spec (f : Nat → List Nat) (sz : Nat)
    (hf : ∀ r, (f r).length = sz) :
    ∀ k, ((List.range k).foldl (fun acc r => addVec acc (f r))
          (List.replicate sz 0)).length = sz ∧
      ∀ j, j < sz →
        ((List.range k).foldl (fun acc r => addVec acc (f r))
          (List.replicate sz 0)).getD j 0 =
        ((List.range k).map (fun r => (f r).getD j 0)).sum := by
  intro k
  induction k with
  | zero =>
    refine ⟨by simp, ?_⟩
    intro j hj
    simp [getD_replicate_zero]
  | succ n ih =>
    have hlen : ((List.range (n + 1)).foldl (fun acc r => addVec acc (f r))
        (List.replicate sz 0)) = addVec ((List.range n).foldl
          (fun acc r => addVec acc (f r)) (List.replicate sz 0)) (f n) := by
      rw [List.range_succ, List.foldl_append]
      rfl
    constructor
    · rw [hlen, addVec_length, ih.1, hf n]
      simp
    · intro j hj
      rw [hlen, addVec_getD _ _ _ (by rw [ih.1]; exact hj) (by rw [hf n]; exact hj),
        ih.2 j hj, List.range_succ, List.map_append, List.sum_append]
      simp

theorem histElems_subset (a : List Int) (W r : Nat) : histElems a W r ⊆ a := by
  intro x hx
  unfold histElems at hx
  rcases List.mem_append.mp hx with h | h
  · exact List.drop_subset _ a (List.take_subset _ _ h)
  · split at h
    · exact List.drop_subset _ a h
    · cases h

theorem local_count_length (a : List Int) (minv : Int) (sz W r : Nat) :
    (local_count a minv sz W r).length = sz := by
  unfold local_count
  rw [buildCount_length]
  simp

theorem local_count_getD (a : List Int) (minv : Int) (sz W r : Nat)
    (hbound : ∀ x ∈ a, minv ≤ x ∧ x < minv + sz) (j : Nat) :
    (local_count a minv sz W r).getD j 0 = (histElems a W r).count (minv + (j : Int)) := by
  unfold local_count
  rw [buildCount_getD minv (histElems a W r) (List.replicate sz 0)
    (by intro x hx; simpa using hbound x (histElems_subset a W r hx)) j]
  rw [getD_replicate_zero]
  omega

/-- Summing the per-chunk occurrence counts over the first k chunks counts the
occurrences in the prefix of length k * L. -/
theorem chunk_count_sum (a : List Int) (v : Int) (L : Nat) :
    ∀ k, ((List.range k).map (fun r => ((a.drop (r * L)).take L).count v)).sum
      = (a.take (k * L)).count v := by
  intro k
  induction k with
  | zero => simp
  | succ n ih =>
    rw [List.range_succ, List.map_append, List.sum_append, ih, Nat.succ_mul,
      List.take_add, List.count_append]
    simp

theorem sum_map_add (l : List Nat) (f g : Nat → Nat) :
    (l.map (fun r => f r + g r)).sum = (l.map f).sum + (l.map g).sum := by
  induction l with
  | nil => simp
  | cons x t ih => simp [ih]; omega

theorem sum_map_ite_zero (c : Nat) :
    ∀ W, 1 ≤ W → ((List.range W).map (fun r => if r = 0 then c else 0)).sum = c := by
  intro W hW
  cases W with
  | zero => omega
  | succ n =>
    rw [List.range_succ_eq_map n]
    simp only [List.map_cons, List.map_map, List.sum_cons, if_pos rfl]
    have htail : ((List.range n).map
        ((fun r => if r = 0 then c else 0) ∘ Nat.succ)).sum = 0 := by
      apply List.sum_eq_zero
      intro x hx
      obtain ⟨k, _, rfl⟩ := List.mem_map.mp hx
      simp [Function.comp_apply]
    rw [htail]
    simp

/-- The per-rank histogram-phase scans jointly count every element of the
array exactly once: the base chunks cover the prefix of length
local_size * num_proc and the extra loop of rank 0 covers the left-out tail. -/
theorem histElems_count_sum (a : List Int) (W : Nat) (hW : 1 ≤ W) (v : Int) :
    ((List.range W).map (fun r => (histElems a W r).count v)).sum = a.count v := by
  have h1 : ∀ r, (histElems a W r).count v =
      ((a.drop (r * (a.length / W))).take (a.length / W)).count v +
      (if r = 0 then (a.drop (a.length / W * W)).count v else 0) := by
    intro r
    unfold histElems
    rw [List.count_append]
    congr 1
    split <;> simp
  calc ((List.range W).map (fun r => (histElems a W r).count v)).sum
      = ((List.range W).map (fun r =>
          ((a.drop (r * (a.length / W))).take (a.length / W)).count v +
          (if r = 0 then (a.drop (a.length / W * W)).count v else 0))).sum := by
        exact congrArg List.sum (List.map_congr_left (fun r _ => h1 r))
    _ = (a.take (W * (a.length / W))).count v +
          (a.drop (a.length / W * W)).count v := by
        rw [sum_map_add, chunk_count_sum, sum_map_ite_zero _ W hW]
    _ = a.count v := by
        rw [Nat.mul_comm W (a.length / W), ← List.count_append,
          List.take_append_drop]

theorem global_count_length (a : List Int) (minv : Int) (sz W : Nat) :
    (global_count a minv sz W).length = sz :=
  (foldl_addVec_spec (local_count a minv sz W) sz
    (local_count_length a minv sz W) W).1

/-- Entry j of the global histogram of the coordinator is the number of occurrences
of the value min + j in the whole array. -/
theorem global_count_getD (a : List Int) (minv : Int) (sz W : Nat) (hW : 1 ≤ W)
    (hbound : ∀ x ∈ a, minv ≤ x ∧ x < minv + sz) (j : Nat) (hj : j < sz) :
    (global_count a minv sz W).getD j 0 = a.count (minv + (j : Int)) := by
  have h := (foldl_addVec_spec (local_count a minv sz W) sz
    (local_count_length a minv sz W) W).2 j hj
  rw [global_count, h]
  calc ((List.range W).map (fun r => (local_count a minv sz W r).getD j 0)).sum
      = ((List.range W).map (fun r =>
          (histElems a W r).count (minv + (j : Int)))).sum := by
        exact congrArg List.sum (List.map_congr_left
          (fun r _ => local_count_getD a minv sz W r hbound j))
    _ = a.count (minv + (j : Int)) := histElems_count_sum a W hW _

/-! ### The reconstruction loop -/

theorem reconstruct_length (minv : Int) (sz : Nat) (cnt : List Nat) :
    (reconstruct minv sz cnt).length =
      ((List.range sz).map (fun i => cnt.getD i 0)).sum := by
  unfold reconstruct
  rw [List.length_flatten, List.map_map]
  congr 1
  apply List.map_congr_left
  intro i _
  simp [Function.comp_apply]

/-- The reconstructed sequence is non-decreasing: the value domain is walked
in increasing order and each value is repeated. -/
theorem reconstruct_sorted (minv : Int) (sz : Nat) (cnt : List Nat) :
    List.Sorted (· ≤ ·) (reconstruct minv sz cnt) := by
  apply List.pairwise_flatten.mpr
  constructor
  · intro l hl
    obtain ⟨i, _, rfl⟩ := List.mem_map.mp hl
    exact List.pairwise_replicate.mpr (Or.inr le_rfl)
  · rw [List.pairwise_map]
    apply List.Pairwise.imp ?_ (List.pairwise_lt_range sz)
    intro i j hij x hx y hy
    rw [List.eq_of_mem_replicate hx, List.eq_of_mem_replicate hy]
    omega

theorem count_reconstruct (minv : Int) (sz : Nat) (cnt : List Nat) (v : Int) :
    (reconstruct minv sz cnt).count v =
      ((List.range sz).map
        (fun i : Nat => if v = minv + (i : Int) then cnt.getD i 0 else 0)).sum := by
  unfold reconstruct
  rw [List.count_flatten, List.map_map]
  congr 1
  apply List.map_congr_left
  intro i _
  simp only [Function.comp_apply, List.count_replicate, beq_iff_eq]
  split_ifs with h1 h2
  · rfl
  · omega
  · omega
  · rfl

theorem sum_ite_range (f : Nat → Nat) :
    ∀ sz j, j < sz →
      ((List.range sz).map (fun i => if j = i then f i else 0)).sum = f j := by
  intro sz
  induction sz with
  | zero => intro j h; omega
  | succ n ih =>
    intro j h
    rw [List.range_succ, List.map_append, List.sum_append]
    rcases Nat.lt_or_ge j n with h1 | h1
    · rw [ih j h1]
      simp [Nat.ne_of_lt h1]
    · have hj : j = n := by omega
      subst hj
      have hzero : ((List.range j).map (fun i => if j = i then f i else 0)).sum = 0 := by
        apply List.sum_eq_zero
        intro x hx
        obtain ⟨k, hk, rfl⟩ := List.mem_map.mp hx
        have hkj : k < j := List.mem_range.mp hk
        simp [Nat.ne_of_gt hkj]
      rw [hzero]
      simp

theorem count_reconstruct_in (minv : Int) (sz : Nat) (cnt : List Nat) (j : Nat)
    (hj : j < sz) :
    (reconstruct minv sz cnt).count (minv + (j : Int)) = cnt.getD j 0 := by
  rw [count_reconstruct]
  have hcong : (List.range sz).map
      (fun i : Nat => if minv + (j : Int) = minv + (i : Int) then cnt.getD i 0 else 0) =
      (List.range sz).map (fun i : Nat => if j = i then cnt.getD i 0 else 0) := by
    apply List.map_congr_left
    intro i _
    by_cases h : j = i
    · simp [h]
    · have hne : ¬ (minv + (j : Int) = minv + (i : Int)) := by omega
      rw [if_neg hne, if_neg h]
  rw [hcong, sum_ite_range (fun i => cnt.getD i 0) sz j hj]

theorem count_reconstruct_out (minv : Int) (sz : Nat) (cnt : List Nat) (v : Int)
    (hv : v < minv ∨ minv + (sz : Int) ≤ v) :
    (reconstruct minv sz cnt).count v = 0 := by
  rw [count_reconstruct]
  apply List.sum_eq_zero
  intro x hx
  obtain ⟨i, hi, rfl⟩ := List.mem_map.mp hx
  have hisz : i < sz := List.mem_range.mp hi
  have hne : ¬ (v = minv + (i : Int)) := by omega
  simp [hne]

theorem range_map_getD (l : List Nat) :
    (List.range l.length).map (fun i => l.getD i 0) = l := by
  induction l with
  | nil => rfl
  | cons x t ih =>
    rw [List.length_cons, List.range_succ_eq_map, List.map_cons, List.map_map]
    have hcomp : ((fun i => (x :: t).getD i 0) ∘ Nat.succ) =
        fun i => t.getD i 0 := by
      funext i
      simp [Function.comp_apply, List.getD_cons_succ]
    rw [hcomp, ih]
    rfl

/-! ### End-to-end behaviour of counting_sort -/

theorem counting_sort_eq (a : List Int) (W : Nat) :
    counting_sort a W = reconstruct (find_min_max a W).1
      (((find_min_max a W).2 - (find_min_max a W).1 + 1).toNat)
      (global_count a (find_min_max a W).1
        (((find_min_max a W).2 - (find_min_max a W).1 + 1).toNat) W) := rfl

/-- The parallel sort preserves the number of occurrences of every value. -/
theorem counting_sort_count (a : List Int) (W : Nat) (ha : a ≠ []) (hW : 1 ≤ W) :
    ∀ v : Int, (counting_sort a W).count v = a.count v := by
  obtain ⟨hmin_mem, hmin_le, hmax_mem, hmax_ge⟩ := find_min_max_spec a W ha hW
  set minv := (find_min_max a W).1 with hminv
  set maxv := (find_min_max a W).2 with hmaxv
  have hmm : minv ≤ maxv := hmin_le maxv hmax_mem
  set sz := (maxv - minv + 1).toNat with hsz
  have hszc : (sz : Int) = maxv - minv + 1 := Int.toNat_of_nonneg (by omega)
  have hbound : ∀ x ∈ a, minv ≤ x ∧ x < minv + (sz : Int) := by
    intro x hx
    have h1 := hmin_le x hx
    have h2 := hmax_ge x hx
    omega
  intro v
  rw [counting_sort_eq]
  by_cases hv : minv ≤ v ∧ v < minv + (sz : Int)
  · have hj0 : ((v - minv).toNat : Int) = v - minv := Int.toNat_of_nonneg (by omega)
    have hj : (v - minv).toNat < sz := by omega
    have hveq : v = minv + ((v - minv).toNat : Int) := by omega
    rw [hveq, count_reconstruct_in _ _ _ _ hj,
      global_count_getD a minv sz W hW hbound _ hj]
  · have hv' : v < minv ∨ minv + (sz : Int) ≤ v := by omega
    rw [count_reconstruct_out _ _ _ _ hv']
    symm
    rw [List.count_eq_zero]
    intro hmem
    have := hbound v hmem
    omega

theorem counting_sort_perm (a : List Int) (W : Nat) (ha : a ≠ []) (hW : 1 ≤ W) :
    List.Perm (counting_sort a W) a :=
  List.perm_iff_count.mpr (counting_sort_count a W ha hW)

theorem counting_sort_sorted (a : List Int) (W : Nat) :
    List.Sorted (· ≤ ·) (counting_sort a W) := by
  rw [counting_sort_eq]
  exact reconstruct_sorted _ _ _

/-! ### End-to-end behaviour of the serial counting_sort -/

theorem serial_eq (a : List Int) :
    serial_counting_sort a = reconstruct (array_min_max a).1
      (((array_min_max a).2 - (array_min_max a).1 + 1).toNat)
      (buildCount
        (List.replicate (((array_min_max a).2 - (array_min_max a).1 + 1).toNat) 0)
        (array_min_max a).1 a) := rfl

theorem serial_count (a : List Int) (ha : a ≠ []) :
    ∀ v : Int, (serial_counting_sort a).count v = a.count v := by
  obtain ⟨hmin_mem, hmin_le, hmax_mem, hmax_ge⟩ := array_min_max_spec a ha
  set minv := (array_min_max a).1 with hminv
  set maxv := (array_min_max a).2 with hmaxv
  have hmm : minv ≤ maxv := hmin_le maxv hmax_mem
  set sz := (maxv - minv + 1).toNat with hsz
  have hszc : (sz : Int) = maxv - minv + 1 := Int.toNat_of_nonneg (by omega)
  have hbound : ∀ x ∈ a, minv ≤ x ∧ x < minv + (sz : Int) := by
    intro x hx
    have h1 := hmin_le x hx
    have h2 := hmax_ge x hx
    omega
  have hcnt : ∀ j : Nat,
      (buildCount (List.replicate sz 0) minv a).getD j 0 =
        a.count (minv + (j : Int)) := by
    intro j
    rw [buildCount_getD minv a (List.replicate sz 0)
      (by intro x hx; simpa using hbound x hx) j, getD_replicate_zero]
    omega
  intro v
  rw [serial_eq]
  by_cases hv : minv ≤ v ∧ v < minv + (sz : Int)
  · have hj0 : ((v - minv).toNat : Int) = v - minv := Int.toNat_of_nonneg (by omega)
    have hj : (v - minv).toNat < sz := by omega
    have hveq : v = minv + ((v - minv).toNat : Int) := by omega
    rw [hveq, count_reconstruct_in _ _ _ _ hj, hcnt]
  · have hv' : v < minv ∨ minv + (sz : Int) ≤ v := by omega
    rw [count_reconstruct_out _ _ _ _ hv']
    symm
    rw [List.count_eq_zero]
    intro hmem
    have := hbound v hmem
    omega

theorem serial_perm (a : List Int) (ha : a ≠ []) :
    List.Perm (serial_counting_sort a) a :=
  List.perm_iff_count.mpr (serial_count a ha)

theorem serial_sorted (a : List Int) :
    List.Sorted (· ≤ ·) (serial_counting_sort a) := by
  rw [serial_eq]
  exact reconstruct_sorted _ _ _

/-! ### The claims about the sort -/

/-- C1: for every input dataset of N ≥ 1 integers and every worker count
W ≥ 1, the sequence reconstructed by the coordinator and then broadcast has
length exactly N and is non-decreasing: output[i] ≤ output[i+1] for every
valid index i. -/
theorem counting_sort_length_and_sorted (a : List Int) (W : Nat)
    (ha : a ≠ []) (hW : 1 ≤ W) :
    (counting_sort a W).length = a.length ∧
    ∀ i : Nat, i + 1 < (counting_sort a W).length →
      (counting_sort a W).getD i 0 ≤ (counting_sort a W).getD (i + 1) 0 := by
  refine ⟨(counting_sort_perm a W ha hW).length_eq, ?_⟩
  intro i hi
  have hs := counting_sort_sorted a W
  have h1 : i < (counting_sort a W).length := by omega
  rw [List.getD_eq_getElem _ _ h1, List.getD_eq_getElem _ _ hi]
  exact hs.rel_get_of_lt (show (⟨i, h1⟩ : Fin _) < ⟨i + 1, hi⟩ from by
    simp [Fin.lt_def])

/-- Witness for C1 at the concrete array [3, 1, 2] with W = 2. -/
theorem counting_sort_length_and_sorted_witness :
    (([3, 1, 2] : List Int) ≠ []) ∧ 1 ≤ 2 ∧
    ((counting_sort [3, 1, 2] 2).length = ([3, 1, 2] : List Int).length ∧
     ∀ i : Nat, i + 1 < (counting_sort [3, 1, 2] 2).length →
       (counting_sort [3, 1, 2] 2).getD i 0 ≤ (counting_sort [3, 1, 2] 2).getD (i + 1) 0) :=
  ⟨by decide, by decide,
    counting_sort_length_and_sorted [3, 1, 2] 2 (by decide) (by decide)⟩

/-- C2: for every input dataset of N ≥ 1 integers and every worker count
W ≥ 1, including when N mod W ≠ 0, the global histogram of the coordinator sums to
N, and the output sequence is a permutation of the input sequence (the
multisets of values agree: no element lost or duplicated). -/
theorem conservation (a : List Int) (W : Nat) (ha : a ≠ []) (hW : 1 ≤ W) :
    (global_count a (find_min_max a W).1
      (((find_min_max a W).2 - (find_min_max a W).1 + 1).toNat) W).sum = a.length ∧
    List.Perm (counting_sort a W) a := by
  refine ⟨?_, counting_sort_perm a W ha hW⟩
  have hlen := (counting_sort_perm a W ha hW).length_eq
  rw [counting_sort_eq, reconstruct_length] at hlen
  rw [← hlen]
  conv_lhs => rw [← range_map_getD (global_count a (find_min_max a W).1
    (((find_min_max a W).2 - (find_min_max a W).1 + 1).toNat) W)]
  rw [global_count_length]

/-- Witness for C2 at the concrete array [3, 1, 2, 1] with W = 3 (so that
N mod W ≠ 0). -/
theorem conservation_witness :
    (([3, 1, 2, 1] : List Int) ≠ []) ∧ 1 ≤ 3 ∧
    ((global_count [3, 1, 2, 1] (find_min_max [3, 1, 2, 1] 3).1
      (((find_min_max [3, 1, 2, 1] 3).2 - (find_min_max [3, 1, 2, 1] 3).1 + 1).toNat)
      3).sum = ([3, 1, 2, 1] : List Int).length ∧
     List.Perm (counting_sort [3, 1, 2, 1] 3) [3, 1, 2, 1]) :=
  ⟨by decide, by decide, conservation [3, 1, 2, 1] 3 (by decide) (by decide)⟩

/-- C5: the concrete scenario with W = 2 and N = 10: the input
[5,3,9,1,4,1,9,2,6,3] sorts to [1,1,2,3,3,4,5,6,9,9], the reduced range is
(min, max) = (1, 9), and the global histogram is [2,1,2,1,1,1,0,0,2]
(offsets 0..8 for the values 1..9). -/
theorem concrete_scenario :
    counting_sort [5, 3, 9, 1, 4, 1, 9, 2, 6, 3] 2 = [1, 1, 2, 3, 3, 4, 5, 6, 9, 9] ∧
    find_min_max [5, 3, 9, 1, 4, 1, 9, 2, 6, 3] 2 = (1, 9) ∧
    global_count [5, 3, 9, 1, 4, 1, 9, 2, 6, 3] 1 9 2 = [2, 1, 2, 1, 1, 1, 0, 0, 2] := by
  refine ⟨by decide, by decide, by decide⟩

/-- C6: sorting an already-sorted (non-decreasing) sequence returns an
identical sequence, for every worker count W ≥ 1. -/
theorem sort_idempotent (a : List Int) (W : Nat) (ha : a ≠ []) (hW : 1 ≤ W)
    (hs : List.Sorted (· ≤ ·) a) : counting_sort a W = a :=
  List.eq_of_perm_of_sorted (counting_sort_perm a W ha hW)
    (counting_sort_sorted a W) hs

/-- Witness for C6 at the concrete sorted array [1, 2, 2] with W = 2. -/
theorem sort_idempotent_witness :
    (([1, 2, 2] : List Int) ≠ []) ∧ 1 ≤ 2 ∧
    List.Sorted (· ≤ ·) ([1, 2, 2] : List Int) ∧
    counting_sort [1, 2, 2] 2 = [1, 2, 2] :=
  ⟨by decide, by decide, by decide,
    sort_idempotent [1, 2, 2] 2 (by decide) (by decide) (by decide)⟩

/-- C9: for every input array with at least one element and every worker count
W ≥ 1, the parallel counting_sort produces exactly the same output sequence as
the single-process serial counting_sort. -/
theorem parallel_refines_serial (a : List Int) (W : Nat) (ha : a ≠ [])
    (hW : 1 ≤ W) : counting_sort a W = serial_counting_sort a :=
  List.eq_of_perm_of_sorted
    ((counting_sort_perm a W ha hW).trans (serial_perm a ha).symm)
    (counting_sort_sorted a W) (serial_sorted a)

/-- Witness for C9 at the concrete array [2, 1, 5] with W = 2. -/
theorem parallel_refines_serial_witness :
    (([2, 1, 5] : List Int) ≠ []) ∧ 1 ≤ 2 ∧
    counting_sort [2, 1, 5] 2 = serial_counting_sort [2, 1, 5] :=
  ⟨by decide, by decide, parallel_refines_serial [2, 1, 5] 2 (by decide) (by decide)⟩

/-! ### The partition scheme (claim C4) -/

/-- The dataset indices rank r scans in the range-reduction phase
(counting_sort.c lines 73-90): rank r > 0 scans the chunk
[(r-1)*local_size, (r-1)*local_size + local_size) and rank 0 scans
[(num_proc-1)*local_size, (num_proc-1)*local_size + local_size + num_leftout). -/
def rangeScan (N W r : Nat) : List Nat :=
  if r = 0 then
    (List.range (N / W + (N - N / W * W))).map ((W - 1) * (N / W) + ·)
  else (List.range (N / W)).map ((r - 1) * (N / W) + ·)

/-- The dataset indices rank r scans in the histogram phase (counting_sort.c
lines 127-129 and 148-151): every rank scans the chunk
[rank*local_size, rank*local_size + local_size) and rank 0 additionally scans
the left-out tail [local_size*num_proc, size). -/
def histScan (N W r : Nat) : List Nat :=
  (List.range (N / W)).map (r * (N / W) + ·) ++
    (if r = 0 then (List.range (N - N / W * W)).map (N / W * W + ·) else [])

theorem leftover_index_facts (N Lq Kq Bq i : Nat) (hBL : Bq + Lq = Kq)
    (hKN : Kq ≤ N) (h1 : Kq ≤ i) (h2 : i < N) :
    i - Bq < Lq + (N - Kq) ∧ Bq + (i - Bq) = i ∧
    i - Kq < N - Kq ∧ Kq + (i - Kq) = i := by omega

theorem div_mul_split (N W : Nat) (hW : 1 ≤ W) :
    (W - 1) * (N / W) + N / W = N / W * W := by
  have h1 : (W - 1 + 1) * (N / W) = (W - 1) * (N / W) + N / W := Nat.succ_mul _ _
  rw [Nat.sub_add_cancel hW] at h1
  rw [← h1, Nat.mul_comm]

theorem bind_chunks (L : Nat) :
    ∀ m, (List.range m).flatMap (fun k => (List.range L).map (k * L + ·)) =
      List.range (m * L) := by
  intro m
  induction m with
  | zero => simp
  | succ n ih =>
    rw [List.range_succ, List.flatMap_append, ih, Nat.succ_mul, List.range_add]
    simp

theorem bind_chunks_shift (L : Nat) :
    ∀ m, (List.range m).flatMap (fun k => (List.range L).map ((k + 1) * L + ·)) =
      (List.range (m * L)).map (L + ·) := by
  intro m
  induction m with
  | zero => simp
  | succ n ih =>
    rw [List.range_succ, List.flatMap_append, ih, Nat.succ_mul n L,
      List.range_add, List.map_append, List.map_map]
    have hfun : ((L + ·) ∘ (n * L + ·)) = ((n + 1) * L + ·) := by
      funext j
      simp only [Function.comp_apply]
      rw [Nat.succ_mul]
      omega
    rw [hfun]
    simp

theorem range_bind_eq (N W : Nat) (hW : 1 ≤ W) :
    (List.range W).flatMap (rangeScan N W) =
      (List.range (N / W + (N - N / W * W))).map ((W - 1) * (N / W) + ·) ++
        List.range ((W - 1) * (N / W)) := by
  obtain ⟨n, rfl⟩ : ∃ n, W = n + 1 := ⟨W - 1, by omega⟩
  rw [List.range_succ_eq_map n]
  show rangeScan N (n + 1) 0 ++
      ((List.range n).map Nat.succ).flatMap (rangeScan N (n + 1)) = _
  congr 1
  rw [List.flatMap_map]
  have hfun : (fun k => rangeScan N (n + 1) (Nat.succ k)) =
      fun k => (List.range (N / (n + 1))).map (k * (N / (n + 1)) + ·) := by
    funext k
    simp [rangeScan]
  rw [hfun, bind_chunks]
  congr 1

theorem hist_bind_eq (N W : Nat) (hW : 1 ≤ W) :
    (List.range W).flatMap (histScan N W) =
      (List.range (N / W) ++ (List.range (N - N / W * W)).map (N / W * W + ·)) ++
        (List.range ((W - 1) * (N / W))).map (N / W + ·) := by
  obtain ⟨n, rfl⟩ : ∃ n, W = n + 1 := ⟨W - 1, by omega⟩
  rw [List.range_succ_eq_map n]
  show histScan N (n + 1) 0 ++
      ((List.range n).map Nat.succ).flatMap (histScan N (n + 1)) = _
  have hhead : histScan N (n + 1) 0 =
      List.range (N / (n + 1)) ++
        (List.range (N - N / (n + 1) * (n + 1))).map (N / (n + 1) * (n + 1) + ·) := by
    unfold histScan
    rw [if_pos rfl]
    congr 1
    have : ((0 * (N / (n + 1)) + ·) : Nat → Nat) = id := by
      funext j
      simp
    rw [this, List.map_id]
  rw [hhead, List.flatMap_map]
  have hfun : (fun k => histScan N (n + 1) (Nat.succ k)) =
      fun k => (List.range (N / (n + 1))).map ((k + 1) * (N / (n + 1)) + ·) := by
    funext k
    simp [histScan]
  rw [hfun, bind_chunks_shift]
  congr 2

/-- C4 counterexample: with N = 4 and W = 2 the base chunk size is L = 2 and
the last chunk covers the indices [2, 3]. The claim says the coordinator
processes the last chunk (plus the leftovers) in each scanning phase, but in
the histogram phase the coordinator scans the indices [0, 1] — the first
chunk — while the range-reduction phase does scan [2, 3]. -/
theorem partition_claim_counterexample :
    histScan 4 2 0 ≠ [2, 3] ∧ histScan 4 2 0 = [0, 1] ∧
    rangeScan 4 2 0 = [2, 3] := by decide

/-- C4 amended: with base chunk size L = N / W, the per-rank scans of each of
the two scanning phases tile [0, N) exactly once, and the N - L*W leftover
indices are contiguous, trail the evenly divided portion and are scanned by
the coordinator in both phases; but the base chunk of the coordinator is the last
chunk only in the range-reduction phase — in the histogram phase the
base chunk of the coordinator is the first chunk — and worker r > 0 scans chunk
r - 1 in the range-reduction phase and chunk r in the histogram phase. -/
theorem partition_scheme (N W : Nat) (hW : 1 ≤ W) :
    List.Perm ((List.range W).flatMap (rangeScan N W)) (List.range N) ∧
    List.Perm ((List.range W).flatMap (histScan N W)) (List.range N) ∧
    (∀ i, N / W * W ≤ i → i < N →
      i ∈ rangeScan N W 0 ∧ i ∈ histScan N W 0) ∧
    (∀ r, 1 ≤ r → r < W →
      rangeScan N W r = (List.range (N / W)).map ((r - 1) * (N / W) + ·) ∧
      histScan N W r = (List.range (N / W)).map (r * (N / W) + ·)) := by
  have hLW : N / W * W ≤ N := Nat.div_mul_le_self _ _
  have hE : (W - 1) * (N / W) + N / W = N / W * W := div_mul_split N W hW
  refine ⟨?_, ?_, ?_, ?_⟩
  · rw [range_bind_eq N W hW]
    have hN : N = (W - 1) * (N / W) + (N / W + (N - N / W * W)) := by omega
    conv_rhs => rw [hN, List.range_add]
    exact List.perm_append_comm
  · rw [hist_bind_eq N W hW]
    have hN : N = N / W + ((W - 1) * (N / W) + (N - N / W * W)) := by omega
    conv_rhs => rw [hN, List.range_add, List.range_add, List.map_append,
      List.map_map]
    have hfun : ((N / W + ·) ∘ ((W - 1) * (N / W) + ·)) = (N / W * W + ·) := by
      funext j
      simp only [Function.comp_apply]
      omega
    rw [hfun, List.append_assoc]
    exact List.perm_append_comm.append_left (List.range (N / W))
  · intro i h1 h2
    obtain ⟨f1, f2, f3, f4⟩ := leftover_index_facts N (N / W) (N / W * W)
      ((W - 1) * (N / W)) i hE hLW h1 h2
    constructor
    · unfold rangeScan
      rw [if_pos rfl]
      exact List.mem_map.mpr ⟨i - (W - 1) * (N / W), List.mem_range.mpr f1, f2⟩
    · unfold histScan
      rw [if_pos rfl]
      apply List.mem_append_right
      exact List.mem_map.mpr ⟨i - N / W * W, List.mem_range.mpr f3, f4⟩
  · intro r hr1 hr2
    have hr0 : ¬ r = 0 := by omega
    constructor
    · unfold rangeScan
      rw [if_neg hr0]
    · unfold histScan
      rw [if_neg hr0, List.append_nil]

/-- Witness for C4 (amended) at the concrete values N = 10, W = 3. -/
theorem partition_scheme_witness :
    1 ≤ 3 ∧
    (List.Perm ((List.range 3).flatMap (rangeScan 10 3)) (List.range 10) ∧
     List.Perm ((List.range 3).flatMap (histScan 10 3)) (List.range 10) ∧
     (∀ i, 10 / 3 * 3 ≤ i → i < 10 →
       i ∈ rangeScan 10 3 0 ∧ i ∈ histScan 10 3 0) ∧
     (∀ r, 1 ≤ r → r < 3 →
       rangeScan 10 3 r = (List.range (10 / 3)).map ((r - 1) * (10 / 3) + ·) ∧
       histScan 10 3 r = (List.range (10 / 3)).map (r * (10 / 3) + ·))) :=
  ⟨by decide, partition_scheme 10 3 (by decide)⟩

/-! ### The output record (claim C7) -/

/-- main.c line 85: only the rank 0 process prints the record. -/
def prints_record (rank : Nat) : Bool := rank == 0

/-- The record rank 0 prints on success (main.c lines 88-89): the format
string is "%lld;%d;%.5f;%.5f;%.5f;", so each of the five fields — size,
num_proc, time_init, time_sort and time_elapsed — is followed by a
semicolon, including the last field. -/
def output_record (size wc ti ts tt : List Char) : List Char :=
  size ++ [';'] ++ wc ++ [';'] ++ ti ++ [';'] ++ ts ++ [';'] ++ tt ++ [';']

/-- From the spec: one delimited record of the form
size;worker_count;init_time;sort_time;total_time — the five fields separated
by four semicolons, with no other fields or delimiters. -/
def spec_record (size wc ti ts tt : List Char) : List Char :=
  size ++ [';'] ++ wc ++ [';'] ++ ti ++ [';'] ++ ts ++ [';'] ++ tt

/-- C7 counterexample: at the concrete field values size = "9",
worker_count = "2" and times "a", "b", "c", the record the program prints
differs from the record form the claim states, because of the trailing
semicolon the format string appends after the fifth field. -/
theorem output_record_counterexample :
    output_record ['9'] ['2'] ['a'] ['b'] ['c'] ≠
      spec_record ['9'] ['2'] ['a'] ['b'] ['c'] := by decide

/-- C7 amended: on success the coordinator alone (rank 0) writes exactly one
record, whose content is the delimited record of the spec
size;worker_count;init_time;sort_time;total_time followed by one extra
trailing semicolon after the fifth field. -/
theorem output_record_amended (size wc ti ts tt : List Char) :
    (∀ rank : Nat, prints_record rank = true ↔ rank = 0) ∧
    output_record size wc ti ts tt = spec_record size wc ti ts tt ++ [';'] := by
  constructor
  · intro rank
    simp [prints_record]
  · simp [output_record, spec_record]

/-! ### Exit status of the program (claim C8) -/

/-- The white-space characters that the C atoll skips. -/
def isSpaceCh (c : Char) : Bool :=
  c = ' ' || c = '\t' || c = '\n' || c = '\x0b' || c = '\x0c' || c = '\r'

def isDigitCh (c : Char) : Bool := '0' ≤ c && c ≤ '9'

/-- The digit-consuming loop of atoll: accumulate the leading run of digits,
stop at the first non-digit. -/
def atoll_digits : List Char → Int → Int
  | [], acc => acc
  | c :: cs, acc =>
    if isDigitCh c then atoll_digits cs (acc * 10 + ((c.toNat : Int) - 48))
    else acc

/-- The C atoll as called at main.c line 62: skip leading white space, consume
an optional sign and then the leading run of digits; a string with no leading
digits yields 0 and any characters after the digit run are ignored. -/
def atoll_chars (cs : List Char) : Int :=
  match cs.dropWhile isSpaceCh with
  | '-' :: t => - atoll_digits t 0
  | '+' :: t => atoll_digits t 0
  | t => atoll_digits t 0

/-- safe_alloc (util.c lines 35-51) makes the whole run exit with failure iff
the requested byte count is smaller than 1 or malloc returns NULL. -/
def safe_alloc_fails (size : Int) (mallocOk : Bool) : Bool :=
  if size < 1 then true else !mallocOk

/-- Exit behaviour of the parallel program: main.c lines 36-93 together with
the allocations a run triggers.  argc is the argument count, arg the
characters of argv[1], W the worker count (num_proc), and mallocOk tells
whether malloc calls succeed; sizeof(int) = 4.  The failure exits are: wrong
argument count (main.c line 44), invalid range (line 53), the safe_alloc of
size * sizeof(int) bytes for the dataset (line 63), and the safe_alloc of
local_size * sizeof(int) bytes inside array_init_random (util.c line 70),
where local_size = size / num_proc (both operands non-negative when reached,
so the C truncated division agrees with Int division).  The safe_alloc calls in
counting_sort request count_size * sizeof(int) ≥ 4 bytes — min ≤ max always
holds once size ≥ 1 — so they fail only when malloc fails, which the earlier
calls already expose.  On every other path the program returns EXIT_SUCCESS
(main.c line 92). -/
def main_exit_failure (argc : Nat) (arg : List Char) (W : Int)
    (mallocOk : Bool) : Bool :=
  if argc ≠ 2 then true
  else if RANGE_MAX ≤ RANGE_MIN then true
  else if safe_alloc_fails (atoll_chars arg * 4) mallocOk then true
  else if safe_alloc_fails (atoll_chars arg / W * 4) mallocOk then true
  else false

/-- From the spec ("single argument = dataset size N (positive integer)"):
a well-formed size argument is the decimal numeral of a positive integer. -/
def spec_wellformed_size_arg (arg : List Char) : Bool :=
  !arg.isEmpty && arg.all isDigitCh && decide (0 < atoll_chars arg)

theorem safe_alloc_fails_iff (size : Int) (m : Bool) :
    safe_alloc_fails size m = true ↔ (size < 1 ∨ m = false) := by
  unfold safe_alloc_fails
  split_ifs with h
  · simp [h]
  · simp [h]

/-- C8 counterexample: the argument "12abc" is malformed — it is not the
numeral of a positive integer — so the claim requires a non-zero exit status;
but atoll accepts its numeric prefix 12, every allocation succeeds (here with
W = 1 and malloc succeeding), and the program exits with success. -/
theorem exit_status_counterexample :
    spec_wellformed_size_arg ['1', '2', 'a', 'b', 'c'] = false ∧
    main_exit_failure 2 ['1', '2', 'a', 'b', 'c'] 1 true = false := by decide

/-- C8 amended: the program exits with a non-zero status iff the argument
count is wrong, the declared interval is invalid (RANGE_MAX ≤ RANGE_MIN), or
a safe_alloc call fails — that is, malloc fails, or the parsed size
atoll(argv[1]) is smaller than 1 (covering a missing digit run and
non-positive values), or the parsed size is smaller than the worker count
(making the per-worker buffer request 0 bytes).  A malformed argument with a
positive numeric prefix, such as "12abc", is accepted as that prefix and the
program exits successfully. -/
theorem exit_status_amended (argc : Nat) (arg : List Char) (W : Int)
    (mallocOk : Bool) (hW : 1 ≤ W) :
    main_exit_failure argc arg W mallocOk = true ↔
      (argc ≠ 2 ∨ RANGE_MAX ≤ RANGE_MIN ∨ atoll_chars arg < 1 ∨
        mallocOk = false ∨ atoll_chars arg < W) := by
  have hR : ¬ (RANGE_MAX ≤ RANGE_MIN) := by decide
  by_cases h1 : argc ≠ 2
  · unfold main_exit_failure
    rw [if_pos h1]
    simp [h1]
  · unfold main_exit_failure
    rw [if_neg h1, if_neg hR]
    by_cases h3 : safe_alloc_fails (atoll_chars arg * 4) mallocOk = true
    · rw [if_pos h3]
      rw [safe_alloc_fails_iff] at h3
      simp only [true_iff]
      rcases h3 with h | h
      · right; right; left; omega
      · right; right; right; left; exact h
    · rw [if_neg h3]
      rw [safe_alloc_fails_iff] at h3
      push_neg at h3
      obtain ⟨h3a, h3b⟩ := h3
      have hs1 : 1 ≤ atoll_chars arg := by omega
      have hmt : mallocOk = true := by
        cases mallocOk
        · exact absurd rfl h3b
        · rfl
      by_cases h5 : atoll_chars arg < W
      · have hq : atoll_chars arg / W = 0 :=
          Int.ediv_eq_zero_of_lt (by omega) h5
        have h6 : safe_alloc_fails (atoll_chars arg / W * 4) mallocOk = true := by
          rw [safe_alloc_fails_iff]
          left
          rw [hq]
          norm_num
        rw [if_pos h6]
        simp only [true_iff]
        right; right; right; right; exact h5
      · have hq : 1 ≤ atoll_chars arg / W :=
          (Int.le_ediv_iff_mul_le (by omega)).mpr (by omega)
        have h6 : ¬ (safe_alloc_fails (atoll_chars arg / W * 4) mallocOk = true) := by
          rw [safe_alloc_fails_iff]
          push_neg
          refine ⟨by omega, by simp [hmt]⟩
        rw [if_neg h6]
        apply iff_of_false
        · simp
        · rintro (h | h | h | h | h)
          · exact h1 h
          · exact hR h
          · omega
          · simp [h] at hmt
          · exact h5 h

/-- Witness for C8 (amended) at the concrete run argc = 2, argv[1] = "7",
W = 2, with malloc succeeding. -/
theorem exit_status_amended_witness :
    (1 : Int) ≤ 2 ∧
    (main_exit_failure 2 ['7'] 2 true = true ↔
      ((2 : Nat) ≠ 2 ∨ RANGE_MAX ≤ RANGE_MIN ∨ atoll_chars ['7'] < 1 ∨
        true = false ∨ atoll_chars ['7'] < 2)) :=
  ⟨by decide, exit_status_amended 2 ['7'] 2 true (by decide)⟩

/-- Witness for C10 at the concrete array [2, 1, 3]. -/
theorem array_min_max_correct_witness :
    (([2, 1, 3] : List Int) ≠ []) ∧
    ((array_min_max [2, 1, 3]).1 ∈ ([2, 1, 3] : List Int) ∧
     (∀ x ∈ ([2, 1, 3] : List Int), (array_min_max [2, 1, 3]).1 ≤ x) ∧
     (array_min_max [2, 1, 3]).2 ∈ ([2, 1, 3] : List Int) ∧
     (∀ x ∈ ([2, 1, 3] : List Int), x ≤ (array_min_max [2, 1, 3]).2)) :=
  ⟨by decide, array_min_max_correct [2, 1, 3] (by decide)⟩

end CSMPI
